import Mathlib

/-!
Shallow embedding of the AT28C256 EEPROM programmer core (eeprom.py).

Bytes are modelled as natural numbers; the serial transport is modelled as
the list of bytes the device will deliver to the host (in order).  A read
past the end of that list corresponds to the pyserial read timeout firing:
port.read(1) then returns the empty byte string, and port.readinto(buf)
returns 0.

Every operation returns a value of type Res:
  - Res.ok carries the result together with the observable effects
    (the event trace, the sink/file contents, the unconsumed input bytes);
  - Res.error Err.assertFail models a Python AssertionError (the assert
    statements in _send);
  - Res.error Err.structError models struct.error raised by struct.pack
    when an argument does not fit its format field;
  - Res.error Err.hang models non-termination: the while loop
    in _receive (and therefore every caller) never returns when the
    transport delivers a declared frame length that is never satisfied
    (each port.readinto call returns 0 after its timeout, forever).

The event trace records, in execution order, every frame written to the
port (Event.sent payload, raw bytes = payload.length :: payload) and every
frame read from the port (Event.recv payload).
-/

namespace Eeprom

/-- self.MAXPAYLOAD in AT28C256.__init__. -/
def MAXPAYLOAD : Nat := 62

/-- One framed message exchanged with the device, at payload level. -/
inductive Event where
  | sent : List Nat → Event
  | recv : List Nat → Event
deriving DecidableEq, Repr

/-- Raw bytes written to the port by AT28C256._send for a payload:
one length byte followed by the payload (int.to_bytes(len(data), 1, big)). -/
def frameBytes (data : List Nat) : List Nat :=
  data.length :: data

/-- Bytes written to the serial port by a trace of events. -/
def wireBytes : List Event → List Nat
  | [] => []
  | Event.sent p :: tr => frameBytes p ++ wireBytes tr
  | Event.recv _ :: tr => wireBytes tr

/-- Failure modes of the embedded operations. -/
inductive Err where
  | assertFail
  | structError
  | hang
deriving DecidableEq, Repr

/-- Result of an operation: a value, a raised exception, or divergence. -/
inductive Res (α : Type) where
  | ok : α → Res α
  | error : Err → Res α
deriving DecidableEq, Repr

/-- Functorial action on successful results. -/
def Res.map {α β : Type} (f : α → β) : Res α → Res β
  | .ok a => .ok (f a)
  | .error e => .error e

/-- AT28C256._receive (without the optional ack): reads one length byte,
then loops reading until that many payload bytes have arrived.

If the input is exhausted before the length byte, port.read(1) returns
the empty byte string after the timeout and int.from_bytes yields 0, so
the function returns an empty frame (no error is raised).  If the length
byte arrives but fewer payload bytes are ever delivered, the loop
while tot < l: tot += self.port.readinto(buf) never terminates, since
each timed-out readinto contributes 0 — modelled as Err.hang. -/
def receive (input : List Nat) : Res (List Nat × List Nat) :=
  match input with
  | [] => .ok ([], [])
  | l :: rest =>
    if l ≤ rest.length then .ok (rest.take l, rest.drop l)
    else .error .hang

/-- AT28C256._send without ack: asserts len(data) <= MAXPAYLOAD, then
writes the length byte followed by the payload.  Returns the raw bytes
written; a violated assertion is Err.assertFail. -/
def sendFrame (data : List Nat) : Res (List Nat) :=
  if data.length ≤ MAXPAYLOAD then .ok (frameBytes data) else .error .assertFail

/-- AT28C256._send with ack=True: transmit the frame, then read one frame
back and assert that it is empty (assert len(self._receive()) == 0).
Returns the produced event trace and the unconsumed input bytes. -/
def sendAck (data input : List Nat) : Res (List Event × List Nat) :=
  match sendFrame data with
  | .error e => .error e
  | .ok _ =>
    match receive input with
    | .error e => .error e
    | .ok (resp, rest) =>
      if resp = [] then .ok ([Event.sent data, Event.recv resp], rest)
      else .error .assertFail

/-- struct.pack('>cH', b'r', addr): opcode 'r' (114) and a big-endian
16-bit address.  Valid only for addr < 65536 (checked at the call sites,
mirroring struct.error). -/
def encodeRead (addr : Nat) : List Nat :=
  [114, addr / 256, addr % 256]

/-- struct.pack('>cHB', b'w', addr, val): opcode 'w' (119), big-endian
16-bit address, one value byte. -/
def encodeWrite (addr val : Nat) : List Nat :=
  [119, addr / 256, addr % 256, val]

/-- The dump command payload b'd' (100). -/
def encodeDump : List Nat := [100]

/-- struct.pack('>cH', b'l', size): opcode 'l' (108) and a big-endian
16-bit size. -/
def encodeLoad (size : Nat) : List Nat :=
  [108, size / 256, size % 256]

/-- struct.pack('>c', b'r'): the single-byte reset command (114). -/
def encodeReset : List Nat := [114]

/-- AT28C256.reset: sends the reset command frame; no response is read. -/
def reset : List Event := [Event.sent encodeReset]

/-- AT28C256.read: packs ['r', addr_hi, addr_lo] (struct.error if the
address does not fit 16 bits), sends it, then reads one response frame
whose payload is the value.  Returns (trace, value bytes, rest of input). -/
def read (addr : Nat) (input : List Nat) : Res (List Event × List Nat × List Nat) :=
  if addr < 65536 then
    match receive input with
    | .error e => .error e
    | .ok (val, rest) =>
      .ok ([Event.sent (encodeRead addr), Event.recv val], val, rest)
  else .error .structError

/-- AT28C256.write: packs ['w', addr_hi, addr_lo, val] (struct.error if
the address exceeds 16 bits or the value exceeds 8 bits) and sends it
with ack=True. -/
def write (addr val : Nat) (input : List Nat) : Res (List Event × List Nat) :=
  if addr < 65536 then
    if val < 256 then sendAck (encodeWrite addr val) input
    else .error .structError
  else .error .structError

/-- State observable after a dump: event trace, bytes written to the sink
file, unconsumed input bytes, and the final transfer count cnt. -/
structure DumpState where
  trace : List Event
  sink : List Nat
  input : List Nat
  cnt : Nat
deriving DecidableEq, Repr

/-- The while loop of AT28C256.fdump:
while cnt < size: buf = self._receive(ack=True)[:size - cnt]; f.write(buf);
cnt += len(buf).

The fuel argument bounds the number of iterations; each iteration that
reads a frame consumes at least one input byte, so fuel = input.length
is always sufficient and the fuel-exhaustion branch is unreachable from
the fdump entry point.  When the input is exhausted while cnt < size the
real loop spins forever on timed-out empty frames (Err.hang). -/
def fdumpLoop : Nat → List Nat → Nat → Nat → Res DumpState
  | 0, input, size, cnt =>
    if cnt < size then .error .hang else .ok ⟨[], [], input, cnt⟩
  | f + 1, input, size, cnt =>
    if cnt < size then
      match input with
      | [] => .error .hang
      | l :: rest =>
        if l ≤ rest.length then
          match fdumpLoop f (rest.drop l) size (cnt + ((rest.take l).take (size - cnt)).length) with
          | .ok r =>
            .ok ⟨Event.recv (rest.take l) :: Event.sent [] :: r.trace,
                 (rest.take l).take (size - cnt) ++ r.sink, r.input, r.cnt⟩
          | .error e => .error e
        else .error .hang
    else .ok ⟨[], [], input, cnt⟩

/-- AT28C256.fdump: send the dump command, run the receive loop, and for a
partial dump (size < 0x8000) send a reset command and consume one
remaining frame without acknowledging it. -/
def fdump (input : List Nat) (size : Nat) : Res DumpState :=
  match fdumpLoop input.length input size 0 with
  | .error e => .error e
  | .ok r =>
    if size < 0x8000 then
      match receive r.input with
      | .error e => .error e
      | .ok (f, input1) =>
        .ok ⟨Event.sent encodeDump :: (r.trace ++ [Event.sent encodeReset, Event.recv f]),
             r.sink, input1, r.cnt⟩
    else .ok ⟨Event.sent encodeDump :: r.trace, r.sink, r.input, r.cnt⟩

/-- State observable after a load: event trace, bytes written to the local
file fload.bin, unconsumed input bytes, and the final transfer count. -/
structure LoadState where
  trace : List Event
  floadBin : List Nat
  input : List Nat
  cnt : Nat
deriving DecidableEq, Repr

/-- The while loop of AT28C256.fload:
data = f.read(min(MAXPAYLOAD, size - cnt)); if not data: break;
cnt += len(data); self._send(data, ack=True); fout.write(data).

src is the readable source; f.read(n) is modelled as src.take n / src.drop n.
Each iteration that sends data consumes at least one source byte, so
fuel = src.length is always sufficient. -/
def floadLoop : Nat → List Nat → List Nat → Nat → Nat → Res LoadState
  | 0, src, input, size, cnt =>
    if src.take (min MAXPAYLOAD (size - cnt)) = [] then .ok ⟨[], [], input, cnt⟩
    else .error .hang
  | f + 1, src, input, size, cnt =>
    if src.take (min MAXPAYLOAD (size - cnt)) = [] then .ok ⟨[], [], input, cnt⟩
    else
      match sendAck (src.take (min MAXPAYLOAD (size - cnt))) input with
      | .error e => .error e
      | .ok (tr, input1) =>
        match floadLoop f (src.drop (min MAXPAYLOAD (size - cnt))) input1 size
                (cnt + (src.take (min MAXPAYLOAD (size - cnt))).length) with
        | .ok r =>
          .ok ⟨tr ++ r.trace, src.take (min MAXPAYLOAD (size - cnt)) ++ r.floadBin,
               r.input, r.cnt⟩
        | .error e => .error e

/-- AT28C256.fload: send the load command with ack (struct.error if size
exceeds 16 bits), open fload.bin for writing (creating or truncating it),
then run the chunk loop. -/
def fload (src input : List Nat) (size : Nat) : Res LoadState :=
  if size < 65536 then
    match sendAck (encodeLoad size) input with
    | .error e => .error e
    | .ok (tr, input1) =>
      match floadLoop src.length src input1 size 0 with
      | .error e => .error e
      | .ok r => .ok ⟨tr ++ r.trace, r.floadBin, r.input, r.cnt⟩
  else .error .structError

/-- True iff a trace is a sequence of received frames, each immediately
followed by the zero-length acknowledgement frame sent back. -/
def isAckedRecvs : List Event → Bool
  | [] => true
  | Event.recv _ :: Event.sent [] :: tr => isAckedRecvs tr
  | _ => false

/-- Number of frames received in a trace. -/
def countRecvs : List Event → Nat
  | [] => 0
  | Event.recv _ :: tr => countRecvs tr + 1
  | Event.sent _ :: tr => countRecvs tr

/-- Number of zero-length (acknowledgement) frames sent in a trace. -/
def countAcks : List Event → Nat
  | [] => 0
  | Event.sent [] :: tr => countAcks tr + 1
  | _ :: tr => countAcks tr

/-- A 62-byte data chunk as served by the device during a full dump. -/
def chunk62 : List Nat := List.replicate 62 0

/-- Raw input bytes delivered by a device that sends the given sequence of
frames: each frame is one length byte followed by its payload. -/
def encodeFrames : List (List Nat) → List Nat
  | [] => []
  | f :: fs => f.length :: (f ++ encodeFrames fs)

/-- Invariant of the fdump receive loop: started at cnt ≤ size, a run that
returns normally ends with cnt exactly equal to size, has written exactly
size - cnt bytes to the sink, and its trace is a sequence of received
frames each immediately acknowledged with a zero-length frame (in
particular, the loop sends nothing but zero-length frames). -/
theorem fdumpLoop_ok_spec (fuel : Nat) :
    ∀ (input : List Nat) (size cnt : Nat) (r : DumpState),
      cnt ≤ size → fdumpLoop fuel input size cnt = .ok r →
      r.cnt = size ∧ r.sink.length + cnt = size ∧ isAckedRecvs r.trace = true ∧
      (∀ p, p ≠ [] → Event.sent p ∉ r.trace) := by
  induction fuel with
  | zero =>
    intro input size cnt r hle h
    by_cases hlt : cnt < size
    · simp [fdumpLoop, hlt] at h
    · simp only [fdumpLoop, if_neg hlt] at h
      injection h with h
      subst h
      refine ⟨by simp; omega, by simp; omega, by simp [isAckedRecvs], by simp⟩
  | succ f ih =>
    intro input size cnt r hle h
    by_cases hlt : cnt < size
    · simp only [fdumpLoop, if_pos hlt] at h
      cases input with
      | nil => simp at h
      | cons l rest =>
        simp only [] at h
        by_cases hl : l ≤ rest.length
        · rw [if_pos hl] at h
          cases hrec : fdumpLoop f (rest.drop l) size
              (cnt + ((rest.take l).take (size - cnt)).length) with
          | error e => rw [hrec] at h; simp at h
          | ok r1 =>
            rw [hrec] at h
            simp only [] at h
            injection h with h
            subst h
            have hbuf : ((rest.take l).take (size - cnt)).length ≤ size - cnt := by
              rw [List.length_take]
              omega
            obtain ⟨h1, h2, h3, h4⟩ := ih (rest.drop l) size _ r1 (by omega) hrec
            refine ⟨h1, ?_, ?_, ?_⟩
            · simp only [List.length_append]
              omega
            · simpa [isAckedRecvs] using h3
            · intro p hp
              simp only [List.mem_cons, not_or]
              exact ⟨by simp, by simp [hp], h4 p hp⟩
        · rw [if_neg hl] at h
          simp at h
    · simp only [fdumpLoop, if_neg hlt] at h
      injection h with h
      subst h
      refine ⟨by simp; omega, by simp; omega, by simp [isAckedRecvs], by simp⟩

/-- Invariant of the fload chunk loop: a run that returns normally never
decreases the count, records in fload.bin exactly the source bytes it has
sent (a prefix of the source), and never pushes the count past size when
started at cnt ≤ size. -/
theorem floadLoop_ok_spec (fuel : Nat) :
    ∀ (src input : List Nat) (size cnt : Nat) (r : LoadState),
      floadLoop fuel src input size cnt = .ok r →
      cnt ≤ r.cnt ∧ r.floadBin = src.take (r.cnt - cnt) ∧
      (cnt ≤ size → r.cnt ≤ size) := by
  induction fuel with
  | zero =>
    intro src input size cnt r h
    by_cases hdata : src.take (min MAXPAYLOAD (size - cnt)) = []
    · simp only [floadLoop, if_pos hdata] at h
      injection h with h
      subst h
      exact ⟨le_refl _, by simp, fun hle => hle⟩
    · simp only [floadLoop, if_neg hdata] at h
      simp at h
  | succ f ih =>
    intro src input size cnt r h
    by_cases hdata : src.take (min MAXPAYLOAD (size - cnt)) = []
    · simp only [floadLoop, if_pos hdata] at h
      injection h with h
      subst h
      exact ⟨le_refl _, by simp, fun hle => hle⟩
    · simp only [floadLoop, if_neg hdata] at h
      split at h
      next e heq => simp at h
      next tr input1 heq =>
        split at h
        next r1 hrec =>
          injection h with h
          subst h
          obtain ⟨ih1, ih2, ih3⟩ := ih _ input1 size _ r1 hrec
          have hn : min MAXPAYLOAD (size - cnt) ≤ size - cnt :=
            Nat.min_le_right MAXPAYLOAD (size - cnt)
          have hdl : (src.take (min MAXPAYLOAD (size - cnt))).length =
              min (min MAXPAYLOAD (size - cnt)) src.length :=
            List.length_take (min MAXPAYLOAD (size - cnt)) src
          refine ⟨by dsimp; omega, ?_, ?_⟩
          · dsimp
            rw [ih2]
            by_cases hsl : min MAXPAYLOAD (size - cnt) ≤ src.length
            · have hlen : (src.take (min MAXPAYLOAD (size - cnt))).length =
                  min MAXPAYLOAD (size - cnt) := by omega
              rw [hlen]
              rw [← List.take_add]
              have harith : min MAXPAYLOAD (size - cnt) +
                  (r1.cnt - (cnt + min MAXPAYLOAD (size - cnt))) = r1.cnt - cnt := by
                omega
              rw [harith]
            · push_neg at hsl
              have h1 : src.take (min MAXPAYLOAD (size - cnt)) = src :=
                List.take_of_length_le (by omega)
              have h2 : src.drop (min MAXPAYLOAD (size - cnt)) = [] :=
                List.drop_eq_nil_of_le (by omega)
              have hlen2 : (src.take (min MAXPAYLOAD (size - cnt))).length = src.length := by
                rw [h1]
              rw [h2, h1]
              simp only [List.take_nil, List.append_nil]
              exact (List.take_of_length_le (by omega)).symm
          · intro hle
            dsimp
            exact ih3 (by omega)
        next e hrec => simp at h

/-- The fload chunk loop sends the whole requested size when the source
holds enough bytes: started at cnt ≤ size with at least size - cnt source
bytes remaining, a normal return ends with cnt exactly equal to size. -/
theorem floadLoop_full (fuel : Nat) :
    ∀ (src input : List Nat) (size cnt : Nat) (r : LoadState),
      cnt ≤ size → size - cnt ≤ src.length →
      floadLoop fuel src input size cnt = .ok r → r.cnt = size := by
  induction fuel with
  | zero =>
    intro src input size cnt r hle hsl h
    by_cases hdata : src.take (min MAXPAYLOAD (size - cnt)) = []
    · simp only [floadLoop, if_pos hdata] at h
      injection h with h
      subst h
      rw [List.take_eq_nil_iff] at hdata
      dsimp
      rcases hdata with h0 | h0
      · simp only [MAXPAYLOAD] at h0
        omega
      · subst h0
        simp at hsl
        omega
    · simp only [floadLoop, if_neg hdata] at h
      simp at h
  | succ f ih =>
    intro src input size cnt r hle hsl h
    by_cases hdata : src.take (min MAXPAYLOAD (size - cnt)) = []
    · simp only [floadLoop, if_pos hdata] at h
      injection h with h
      subst h
      rw [List.take_eq_nil_iff] at hdata
      dsimp
      rcases hdata with h0 | h0
      · simp only [MAXPAYLOAD] at h0
        omega
      · subst h0
        simp at hsl
        omega
    · simp only [floadLoop, if_neg hdata] at h
      split at h
      next e heq => simp at h
      next tr input1 heq =>
        split at h
        next r1 hrec =>
          injection h with h
          subst h
          have hn : min MAXPAYLOAD (size - cnt) ≤ size - cnt :=
            Nat.min_le_right MAXPAYLOAD (size - cnt)
          have hdl : (src.take (min MAXPAYLOAD (size - cnt))).length =
              min (min MAXPAYLOAD (size - cnt)) src.length :=
            List.length_take (min MAXPAYLOAD (size - cnt)) src
          have hdrop : (src.drop (min MAXPAYLOAD (size - cnt))).length =
              src.length - min MAXPAYLOAD (size - cnt) :=
            List.length_drop (min MAXPAYLOAD (size - cnt)) src
          have := ih (src.drop (min MAXPAYLOAD (size - cnt))) input1 size
            (cnt + (src.take (min MAXPAYLOAD (size - cnt))).length) r1
            (by omega) (by omega) hrec
          dsimp
          exact this
        next e hrec => simp at h

/-- Length of the raw encoding of a frame sequence. -/
theorem encodeFrames_length (fs : List (List Nat)) :
    (encodeFrames fs).length = fs.length + (fs.map List.length).sum := by
  induction fs with
  | nil => simp [encodeFrames]
  | cons f fs ih =>
    simp only [encodeFrames, List.length_cons, List.length_append, ih,
      List.map_cons, List.sum_cons]
    omega

/-- Fed a stream of well-formed frames that are all non-empty and carry at
least size bytes in total, the dump loop returns normally with the count
exactly equal to size. -/
theorem fdumpLoop_frames_ok (fs : List (List Nat)) :
    ∀ (fuel size cnt : Nat),
      cnt ≤ size → size ≤ cnt + (fs.map List.length).sum →
      (∀ f ∈ fs, f ≠ []) → (encodeFrames fs).length ≤ fuel →
      ∃ r, fdumpLoop fuel (encodeFrames fs) size cnt = .ok r ∧ r.cnt = size := by
  induction fs with
  | nil =>
    intro fuel size cnt hle hsum hne hfuel
    simp only [List.map_nil, List.sum_nil, Nat.add_zero] at hsum
    have hlt : ¬ (cnt < size) := by omega
    refine ⟨⟨[], [], [], cnt⟩, ?_, by dsimp; omega⟩
    cases fuel <;> simp [fdumpLoop, encodeFrames, hlt]
  | cons fchunk fs ih =>
    intro fuel size cnt hle hsum hne hfuel
    by_cases hlt : cnt < size
    · cases fuel with
      | zero =>
        rw [encodeFrames_length] at hfuel
        simp at hfuel
      | succ fu =>
        have hchne : fchunk ≠ [] := hne fchunk (by simp)
        have hchpos : 0 < fchunk.length := List.length_pos.mpr hchne
        simp only [encodeFrames]
        simp only [fdumpLoop, if_pos hlt]
        rw [if_pos (by simp)]
        rw [List.take_left, List.drop_left]
        have hblen : (fchunk.take (size - cnt)).length = min (size - cnt) fchunk.length :=
          List.length_take _ _
        simp only [List.map_cons, List.sum_cons] at hsum
        have hfu : (encodeFrames fs).length ≤ fu := by
          rw [encodeFrames_length] at hfuel ⊢
          simp only [List.length_cons, List.map_cons, List.sum_cons] at hfuel
          omega
        obtain ⟨r1, hr1, hc1⟩ :=
          ih fu size (cnt + (fchunk.take (size - cnt)).length) (by omega) (by omega)
            (fun f hf => hne f (by simp [hf])) hfu
        rw [hr1]
        exact ⟨_, rfl, by dsimp; exact hc1⟩
    · refine ⟨⟨[], [], encodeFrames (fchunk :: fs), cnt⟩, ?_, by dsimp; omega⟩
      cases fuel <;> simp [fdumpLoop, hlt]

/-- Raw byte length of k encoded 62-byte chunks. -/
theorem chunk62_frames_length (k : Nat) :
    (encodeFrames (List.replicate k chunk62)).length = 63 * k := by
  induction k with
  | zero => simp [encodeFrames]
  | succ k ih =>
    rw [List.replicate_succ]
    simp only [encodeFrames, List.length_cons, List.length_append, ih]
    simp [chunk62]
    omega

/-- Fed a stream of k frames of exactly 62 bytes each covering at least
size bytes, the dump loop returns normally with count equal to size, the
sink holding exactly the missing size - cnt bytes, and exactly
ceil((size - cnt) / 62) frames received and acknowledged. -/
theorem fdumpLoop_chunk62_spec (k : Nat) :
    ∀ (fuel size cnt : Nat),
      cnt ≤ size → size ≤ cnt + 62 * k →
      (encodeFrames (List.replicate k chunk62)).length ≤ fuel →
      ∃ r, fdumpLoop fuel (encodeFrames (List.replicate k chunk62)) size cnt = .ok r ∧
        r.cnt = size ∧ r.sink.length + cnt = size ∧
        countRecvs r.trace = (size - cnt + 61) / 62 ∧
        countAcks r.trace = (size - cnt + 61) / 62 := by
  induction k with
  | zero =>
    intro fuel size cnt hle hsum hfuel
    have hlt : ¬ (cnt < size) := by omega
    refine ⟨⟨[], [], [], cnt⟩, ?_, by dsimp; omega, by dsimp; omega,
      by dsimp [countRecvs]; omega, by dsimp [countAcks]; omega⟩
    cases fuel <;> simp [fdumpLoop, encodeFrames, hlt]
  | succ k ih =>
    intro fuel size cnt hle hsum hfuel
    by_cases hlt : cnt < size
    · cases fuel with
      | zero =>
        rw [chunk62_frames_length] at hfuel
        omega
      | succ fu =>
        rw [List.replicate_succ]
        simp only [encodeFrames]
        simp only [fdumpLoop, if_pos hlt]
        rw [if_pos (by simp)]
        rw [List.take_left, List.drop_left]
        have hclen : chunk62.length = 62 := by simp [chunk62]
        have hblen : (chunk62.take (size - cnt)).length = min (size - cnt) 62 := by
          rw [List.length_take, hclen]
        have hfu : (encodeFrames (List.replicate k chunk62)).length ≤ fu := by
          rw [chunk62_frames_length] at hfuel ⊢
          omega
        obtain ⟨r1, hr1, hc1, hs1, hcr1, hca1⟩ :=
          ih fu size (cnt + (chunk62.take (size - cnt)).length) (by omega) (by omega) hfu
        rw [hr1]
        refine ⟨_, rfl, by dsimp; exact hc1, ?_, ?_, ?_⟩
        · dsimp
          rw [List.length_append]
          omega
        · dsimp [countRecvs]
          omega
        · dsimp [countAcks]
          omega
    · refine ⟨⟨[], [], encodeFrames (List.replicate (k + 1) chunk62), cnt⟩, ?_,
        by dsimp; omega, by dsimp; omega,
        by dsimp [countRecvs]; omega, by dsimp [countAcks]; omega⟩
      cases fuel <;> simp [fdumpLoop, hlt]

/-- C1: the spec claims that when the transport withholds bytes past the
read timeout, readByte fails with a Timeout error and _receive raises a
fatal timeout whenever the declared frame length cannot be satisfied,
never silently returning a partial or empty frame.  The code does neither:
with the declared length 5 and only 3 delivered payload bytes, the receive
loop spins forever on timed-out zero-byte reads (Err.hang); with no bytes
delivered at all, the timed-out length read becomes length 0 and _receive
silently returns an empty frame, so read returns a (vacuous) value instead
of failing. -/
theorem receive_timeout_is_masked :
    receive [5, 1, 2, 3] = .error .hang ∧
    receive [] = .ok ([], []) ∧
    read 5 [] = .ok ([Event.sent (encodeRead 5), Event.recv []], [], []) :=
  ⟨by decide, by decide, by decide⟩

/-- C2 counterexample: read and write at address 0x8000 do not fail with
any out-of-range error — they encode the address into wire bytes, send
them, and succeed against a responding transport. -/
theorem read_write_0x8000_sends_bytes :
    read 0x8000 [1, 42] = .ok ([Event.sent [114, 128, 0], Event.recv [42]], [42], []) ∧
    write 0x8000 7 [0] = .ok ([Event.sent [119, 128, 0, 7], Event.recv []], []) :=
  ⟨by decide, by decide⟩

/-- C2 (amended): read and write perform no EEPROM address-space check.
Any address below 0x10000 (in particular 0x8000 and 0x7FFF alike) is
encoded and sent, succeeding against a transport that responds correctly;
only an address that does not fit the 16-bit struct field (≥ 0x10000), or
a write value that does not fit a byte (≥ 256), raises struct.error before
any bytes are sent. -/
theorem address_range_behavior :
    (∀ a input resp rest, a < 65536 → receive input = .ok (resp, rest) →
      read a input = .ok ([Event.sent (encodeRead a), Event.recv resp], resp, rest)) ∧
    (∀ a v input rest, a < 65536 → v < 256 → receive input = .ok ([], rest) →
      write a v input = .ok ([Event.sent (encodeWrite a v), Event.recv []], rest)) ∧
    (∀ a input, 65536 ≤ a → read a input = .error .structError) ∧
    (∀ a v input, 65536 ≤ a ∨ (256 ≤ v ∧ a < 65536) →
      write a v input = .error .structError) := by
  refine ⟨?_, ?_, ?_, ?_⟩
  · intro a input resp rest ha hr
    simp [read, ha, hr]
  · intro a v input rest ha hv hr
    simp [write, ha, hv, sendAck, sendFrame, hr, encodeWrite, MAXPAYLOAD, frameBytes]
  · intro a input ha
    simp [read, Nat.not_lt.mpr ha]
  · intro a v input h
    rcases h with h | ⟨hv, ha⟩
    · simp [write, Nat.not_lt.mpr h]
    · simp [write, ha, Nat.not_lt.mpr hv]

/-- Witness for address_range_behavior at addresses 0x7FFF and 0x10000. -/
theorem address_range_behavior_witness :
    read 32767 [1, 42] = .ok ([Event.sent (encodeRead 32767), Event.recv [42]], [42], []) ∧
    write 32767 7 [0] = .ok ([Event.sent (encodeWrite 32767 7), Event.recv []], []) ∧
    read 65536 [1, 42] = .error .structError :=
  ⟨address_range_behavior.1 32767 [1, 42] [42] [] (by decide) (by decide),
   address_range_behavior.2.1 32767 7 [0] [] (by decide) (by decide) (by decide),
   address_range_behavior.2.2.1 65536 [1, 42] (by decide)⟩

/-- C3: for every payload p with length at most 62, _send writes exactly
one length byte equal to the payload length followed by the payload bytes,
and _receive applied to that encoding (followed by any further input)
yields p exactly — the framing round-trip. -/
theorem framing_roundtrip (p rest : List Nat) (h : p.length ≤ MAXPAYLOAD) :
    sendFrame p = .ok (p.length :: p) ∧
    receive (frameBytes p ++ rest) = .ok (p, rest) := by
  constructor
  · simp [sendFrame, frameBytes, h]
  · show receive (p.length :: (p ++ rest)) = .ok (p, rest)
    simp [receive, List.length_append, Nat.le_add_right, List.take_left, List.drop_left]

/-- Witness for framing_roundtrip on a concrete payload. -/
theorem framing_roundtrip_witness :
    sendFrame [7, 8] = .ok ([7, 8].length :: [7, 8]) ∧
    receive (frameBytes [7, 8] ++ [9]) = .ok ([7, 8], [9]) :=
  framing_roundtrip [7, 8] [9] (by decide)

/-- C7: _send with ack=True sends the frame, then receives one frame and
succeeds exactly when that response frame is zero-length, returning
normally; any non-empty response raises a fatal assertion error. -/
theorem send_and_ack_requires_empty (data input resp rest : List Nat)
    (h : data.length ≤ MAXPAYLOAD) (hr : receive input = .ok (resp, rest)) :
    (sendAck data input = .ok ([Event.sent data, Event.recv resp], rest) ↔ resp = []) ∧
    (resp ≠ [] → sendAck data input = .error .assertFail) := by
  by_cases hresp : resp = []
  · subst hresp
    simp [sendAck, sendFrame, h, hr]
  · simp [sendAck, sendFrame, h, hr, hresp]

/-- Witness for send_and_ack_requires_empty: an empty response acknowledges,
a non-empty response is fatal. -/
theorem send_and_ack_requires_empty_witness :
    (sendAck [1, 2] [0, 9] = .ok ([Event.sent [1, 2], Event.recv []], [9]) ↔ ([] : List Nat) = []) ∧
    (([7] : List Nat) ≠ [] → sendAck [1, 2] [1, 7] = .error .assertFail) :=
  ⟨(send_and_ack_requires_empty [1, 2] [0, 9] [] [9] (by decide) (by decide)).1,
   (send_and_ack_requires_empty [1, 2] [1, 7] [7] [] (by decide) (by decide)).2⟩

/-- C8: the command payloads are encoded bit-exactly: read is
['r', addr_hi, addr_lo], write is ['w', addr_hi, addr_lo, value], dump is
['d'], load is ['l', size_hi, size_lo], reset is the single byte ['r'];
16-bit fields are big-endian (hi and lo reconstruct the argument) and all
emitted bytes fit in one byte. -/
theorem command_encodings (a v s : Nat) (ha : a < 65536) (hv : v < 256) (hs : s < 65536) :
    encodeRead a = [114, a / 256, a % 256] ∧
    encodeWrite a v = [119, a / 256, a % 256, v] ∧
    encodeDump = [100] ∧
    encodeLoad s = [108, s / 256, s % 256] ∧
    encodeReset = [114] ∧
    reset = [Event.sent encodeReset] ∧
    256 * (a / 256) + a % 256 = a ∧
    256 * (s / 256) + s % 256 = s ∧
    (∀ b ∈ encodeRead a, b < 256) ∧
    (∀ b ∈ encodeWrite a v, b < 256) ∧
    (∀ b ∈ encodeLoad s, b < 256) := by
  refine ⟨rfl, rfl, rfl, rfl, rfl, rfl, by omega, by omega, ?_, ?_, ?_⟩ <;>
    simp [encodeRead, encodeWrite, encodeLoad] <;> omega

/-- Witness for command_encodings at address 0x1234, value 5, size 300. -/
theorem command_encodings_witness :
    encodeRead 4660 = [114, 4660 / 256, 4660 % 256] ∧
    encodeWrite 4660 5 = [119, 4660 / 256, 4660 % 256, 5] ∧
    encodeDump = [100] ∧
    encodeLoad 300 = [108, 300 / 256, 300 % 256] ∧
    encodeReset = [114] ∧
    reset = [Event.sent encodeReset] ∧
    256 * (4660 / 256) + 4660 % 256 = 4660 ∧
    256 * (300 / 256) + 300 % 256 = 300 ∧
    (∀ b ∈ encodeRead 4660, b < 256) ∧
    (∀ b ∈ encodeWrite 4660 5, b < 256) ∧
    (∀ b ∈ encodeLoad 300, b < 256) :=
  command_encodings 4660 5 300 (by decide) (by decide) (by decide)

/-- Destructuring of a successful fload into its phases: the acknowledged
load command followed by the chunk loop. -/
theorem fload_ok_destruct (src input : List Nat) (size : Nat) (r : LoadState)
    (h : fload src input size = .ok r) :
    ∃ input1 r1, sendAck (encodeLoad size) input = .ok ([Event.sent (encodeLoad size),
        Event.recv []], input1) ∧
      floadLoop src.length src input1 size 0 = .ok r1 ∧
      r = ⟨[Event.sent (encodeLoad size), Event.recv []] ++ r1.trace,
           r1.floadBin, r1.input, r1.cnt⟩ ∧ size < 65536 := by
  by_cases hsz : size < 65536
  · simp only [fload, if_pos hsz] at h
    split at h
    next e heq => simp at h
    next tr0 input1 heq =>
      have htr0 : tr0 = [Event.sent (encodeLoad size), Event.recv []] := by
        simp only [sendAck] at heq
        split at heq
        next => simp at heq
        next =>
          split at heq
          next => simp at heq
          next resp rest heq2 =>
            split at heq
            · injection heq with heq
              injection heq with heq1 heq2
              subst heq1
              next hresp => rw [hresp]
            · simp at heq
      subst htr0
      split at h
      next e heq2 => simp at h
      next r1 heq2 =>
        injection h with h
        exact ⟨input1, r1, heq, heq2, h.symm, hsz⟩
  · simp [fload, hsz] at h

/-- C4 counterexample: a load whose source is exhausted before the target
size completes its loop with the transferred count strictly below the
target — against a transport that acknowledges the load command, fload of
size 5 from an empty source returns normally with count 0. -/
theorem fload_short_source_stops_early :
    fload [] [0] 5 = .ok ⟨[Event.sent (encodeLoad 5), Event.recv []], [], [], 0⟩ ∧
    (0 : Nat) ≠ 5 :=
  ⟨by decide, by decide⟩

/-- A successful full dump of exactly 0x8000 bytes is the dump command
followed by the loop run, with no reset and no drain. -/
theorem fdump_full_of_loop (input : List Nat) (r1 : DumpState)
    (h : fdumpLoop input.length input 0x8000 0 = .ok r1) :
    fdump input 0x8000 = .ok ⟨Event.sent encodeDump :: r1.trace, r1.sink, r1.input, r1.cnt⟩ := by
  simp only [fdump]
  rw [h]
  simp only []
  rw [if_neg (by norm_num)]

/-- C4 (amended): the transferred count never exceeds the target size in
either direction; the dump loop returns normally exactly with count equal
to the target (and the sink holding exactly the missing bytes); the load
loop's final count equals the target whenever the source holds at least
size bytes (with a shorter source it stops early at source exhaustion);
and a full dump of 0x8000 bytes against a transport serving 62-byte chunks
writes exactly 32768 bytes to the sink in 529 received frames, each
acknowledged. -/
theorem transfer_count_invariants :
    (∀ fuel input size cnt r, cnt ≤ size → fdumpLoop fuel input size cnt = .ok r →
      r.cnt = size ∧ r.sink.length + cnt = size) ∧
    (∀ fuel src input size cnt r, cnt ≤ size → floadLoop fuel src input size cnt = .ok r →
      cnt ≤ r.cnt ∧ r.cnt ≤ size) ∧
    (∀ src input size r, size ≤ src.length → fload src input size = .ok r → r.cnt = size) ∧
    (∃ r tr, fdump (encodeFrames (List.replicate 529 chunk62)) 0x8000 = .ok r ∧
      r.trace = Event.sent encodeDump :: tr ∧ r.sink.length = 32768 ∧ r.cnt = 32768 ∧
      countRecvs tr = 529 ∧ countAcks tr = 529 ∧ isAckedRecvs tr = true) := by
  refine ⟨?_, ?_, ?_, ?_⟩
  · intro fuel input size cnt r hle h
    obtain ⟨h1, h2, _, _⟩ := fdumpLoop_ok_spec fuel input size cnt r hle h
    exact ⟨h1, h2⟩
  · intro fuel src input size cnt r hle h
    obtain ⟨h1, _, h3⟩ := floadLoop_ok_spec fuel src input size cnt r h
    exact ⟨h1, h3 hle⟩
  · intro src input size r hsl h
    obtain ⟨input1, r1, hsa, hfl, hr, hsz⟩ := fload_ok_destruct src input size r h
    subst hr
    exact floadLoop_full src.length src input1 size 0 r1 (Nat.zero_le _) (by omega) hfl
  · obtain ⟨r1, hr1, hc1, hs1, hcr1, hca1⟩ :=
      fdumpLoop_chunk62_spec 529 (encodeFrames (List.replicate 529 chunk62)).length
        0x8000 0 (by omega) (by omega) (le_refl _)
    obtain ⟨_, _, hack, _⟩ :=
      fdumpLoop_ok_spec (encodeFrames (List.replicate 529 chunk62)).length
        (encodeFrames (List.replicate 529 chunk62)) 0x8000 0 r1 (by omega) hr1
    exact ⟨⟨Event.sent encodeDump :: r1.trace, r1.sink, r1.input, r1.cnt⟩, r1.trace,
      fdump_full_of_loop _ r1 hr1, rfl, by dsimp; omega, by dsimp; omega,
      by omega, by omega, hack⟩

/-- Witness for transfer_count_invariants on a two-byte dump. -/
theorem transfer_count_invariants_witness :
    ({ trace := [Event.recv [5, 6], Event.sent []], sink := [5, 6], input := [],
       cnt := 2 } : DumpState).cnt = 2 ∧
    ({ trace := [Event.recv [5, 6], Event.sent []], sink := [5, 6], input := [],
       cnt := 2 } : DumpState).sink.length + 0 = 2 :=
  transfer_count_invariants.1 2 [2, 5, 6] 2 0
    ⟨[Event.recv [5, 6], Event.sent []], [5, 6], [], 2⟩ (by decide) (by decide)

/-- The fload chunk loop on a source of at least 100 bytes with target 100
sends exactly the 62-byte chunk then the 38-byte chunk, each acknowledged
by a zero-length frame before the next send. -/
theorem floadLoop_two_chunks (f : Nat) (src rest : List Nat) (hsrc : 100 ≤ src.length) :
    floadLoop (f + 2) src (0 :: 0 :: rest) 100 0 =
      .ok ⟨[Event.sent (src.take 62), Event.recv [],
            Event.sent ((src.drop 62).take 38), Event.recv []],
           src.take 62 ++ (src.drop 62).take 38, rest, 100⟩ := by
  have hlen1 : (src.take 62).length = 62 := by rw [List.length_take]; omega
  have hne1 : src.take 62 ≠ [] := List.length_pos.mp (by omega)
  have hdlen : (src.drop 62).length = src.length - 62 := List.length_drop 62 src
  have hlen2 : ((src.drop 62).take 38).length = 38 := by rw [List.length_take]; omega
  have hne2 : (src.drop 62).take 38 ≠ [] := List.length_pos.mp (by omega)
  have hsa1 : sendAck (src.take 62) (0 :: 0 :: rest) =
      .ok ([Event.sent (src.take 62), Event.recv []], 0 :: rest) := by
    simp [sendAck, sendFrame, receive, MAXPAYLOAD, hlen1]
  have hsa2 : sendAck ((src.drop 62).take 38) (0 :: rest) =
      .ok ([Event.sent ((src.drop 62).take 38), Event.recv []], rest) := by
    simp [sendAck, sendFrame, receive, MAXPAYLOAD, hlen2]
  have hit3 : floadLoop f (src.drop 100) rest 100 100 = .ok ⟨[], [], rest, 100⟩ := by
    cases f <;> simp [floadLoop, MAXPAYLOAD]
  have hit2 : floadLoop (f + 1) (src.drop 62) (0 :: rest) 100 62 =
      .ok ⟨[Event.sent ((src.drop 62).take 38), Event.recv []],
           (src.drop 62).take 38, rest, 100⟩ := by
    rw [floadLoop.eq_2]
    rw [show min MAXPAYLOAD (100 - 62) = 38 from by decide]
    rw [if_neg hne2, hsa2]
    simp only []
    rw [hlen2]
    norm_num
    rw [hit3]
    simp
  rw [floadLoop.eq_2]
  rw [show min MAXPAYLOAD (100 - 0) = 62 from by decide]
  rw [if_neg hne1, hsa1]
  simp only []
  rw [hlen1]
  norm_num
  rw [hit2]

/-- C5: a load of size 100 from a source of at least 100 bytes, against a
transport that acknowledges the load command and both chunks, produces
exactly this ordered exchange: load command sent, ack received, 62-byte
chunk sent, ack received, 38-byte chunk sent, ack received — so each chunk
is individually acknowledged and no chunk is sent before the previous
acknowledgement (including the load command's) has been received. -/
theorem fload_hundred_two_acked_chunks (src rest : List Nat) (hsrc : 100 ≤ src.length) :
    fload src (0 :: 0 :: 0 :: rest) 100 =
      .ok ⟨[Event.sent (encodeLoad 100), Event.recv [],
            Event.sent (src.take 62), Event.recv [],
            Event.sent ((src.drop 62).take 38), Event.recv []],
           src.take 100, rest, 100⟩ := by
  have hsa0 : sendAck (encodeLoad 100) (0 :: 0 :: 0 :: rest) =
      .ok ([Event.sent (encodeLoad 100), Event.recv []], 0 :: 0 :: rest) := by
    simp [sendAck, sendFrame, receive, encodeLoad, MAXPAYLOAD]
  obtain ⟨f, hf⟩ : ∃ f, src.length = f + 2 := ⟨src.length - 2, by omega⟩
  simp only [fload]
  rw [if_pos (by norm_num)]
  rw [hsa0]
  simp only []
  rw [hf, floadLoop_two_chunks f src rest hsrc]
  simp only []
  rw [show src.take 62 ++ (src.drop 62).take 38 = src.take 100 from by rw [← List.take_add]]
  simp

/-- Witness for fload_hundred_two_acked_chunks on a concrete source. -/
theorem fload_hundred_two_acked_chunks_witness :
    fload (List.replicate 100 7) [0, 0, 0] 100 =
      .ok ⟨[Event.sent (encodeLoad 100), Event.recv [],
            Event.sent ((List.replicate 100 7).take 62), Event.recv [],
            Event.sent (((List.replicate 100 7).drop 62).take 38), Event.recv []],
           (List.replicate 100 7).take 100, [], 100⟩ :=
  fload_hundred_two_acked_chunks (List.replicate 100 7) [] (by simp)

/-- C6: every successful partial dump (target size strictly below 0x8000)
ends by sending the reset command and then receiving exactly one more
frame that is not acknowledged (the trace ends right after that receive);
a successful full dump of exactly 0x8000 bytes sends no reset and drains
no extra frame — after the dump command its whole trace is received frames
each immediately acknowledged, with no reset frame anywhere in it. -/
theorem partial_dump_resync (input : List Nat) (size : Nat) (r : DumpState)
    (h : fdump input size = .ok r) :
    (size < 0x8000 → ∃ tr fr, r.trace =
        Event.sent encodeDump :: (tr ++ [Event.sent encodeReset, Event.recv fr]) ∧
      isAckedRecvs tr = true ∧ Event.sent encodeReset ∉ tr) ∧
    (size = 0x8000 → ∃ tr, r.trace = Event.sent encodeDump :: tr ∧
      isAckedRecvs tr = true ∧ Event.sent encodeReset ∉ tr) := by
  simp only [fdump] at h
  split at h
  next e heq => simp at h
  next r1 heq =>
    obtain ⟨hc1, hs1, hack, hnosent⟩ :=
      fdumpLoop_ok_spec input.length input size 0 r1 (Nat.zero_le _) heq
    by_cases hsz : size < 0x8000
    · rw [if_pos hsz] at h
      split at h
      next e heq2 => simp at h
      next fr input1 heq2 =>
        injection h with h
        subst h
        refine ⟨fun _ => ⟨r1.trace, fr, rfl, hack, hnosent encodeReset (by simp [encodeReset])⟩,
          fun heq3 => ?_⟩
        omega
    · rw [if_neg hsz] at h
      injection h with h
      subst h
      exact ⟨fun hlt => absurd hlt hsz,
        fun _ => ⟨r1.trace, rfl, hack, hnosent encodeReset (by simp [encodeReset])⟩⟩

/-- Witness for partial_dump_resync on a concrete two-byte partial dump. -/
theorem partial_dump_resync_witness :
    ∃ tr fr, ({ trace := [Event.sent [100], Event.recv [1, 2], Event.sent [],
                          Event.sent [114], Event.recv [3]],
                sink := [1, 2], input := [], cnt := 2 } : DumpState).trace =
        Event.sent encodeDump :: (tr ++ [Event.sent encodeReset, Event.recv fr]) ∧
      isAckedRecvs tr = true ∧ Event.sent encodeReset ∉ tr :=
  (partial_dump_resync [2, 1, 2, 1, 3] 2
    ⟨[Event.sent [100], Event.recv [1, 2], Event.sent [], Event.sent [114], Event.recv [3]],
     [1, 2], [], 2⟩ (by decide)).1 (by decide)

/-- C9: every successful load writes to the local file fload.bin (opened
for writing, hence created or truncated, before any chunk is sent) exactly
the chunk bytes it sent, in order: the file holds the first cnt source
bytes; when the source holds at least size bytes that is exactly the first
size bytes; and a load that sends zero chunks leaves fload.bin empty. -/
theorem fload_bin_mirrors_sent_chunks :
    (∀ src input size r, fload src input size = .ok r → r.floadBin = src.take r.cnt) ∧
    (∀ src input size r, size ≤ src.length → fload src input size = .ok r →
      r.floadBin = src.take size) ∧
    (∀ src input r, fload src input 0 = .ok r → r.floadBin = []) := by
  refine ⟨?_, ?_, ?_⟩
  · intro src input size r h
    obtain ⟨input1, r1, hsa, hfl, hr, hsz⟩ := fload_ok_destruct src input size r h
    obtain ⟨h1, h2, h3⟩ := floadLoop_ok_spec src.length src input1 size 0 r1 hfl
    subst hr
    dsimp
    rw [h2]
    simp
  · intro src input size r hsl h
    obtain ⟨input1, r1, hsa, hfl, hr, hsz⟩ := fload_ok_destruct src input size r h
    have hfull := floadLoop_full src.length src input1 size 0 r1 (Nat.zero_le _) (by omega) hfl
    obtain ⟨h1, h2, h3⟩ := floadLoop_ok_spec src.length src input1 size 0 r1 hfl
    subst hr
    dsimp
    rw [h2, hfull]
    simp
  · intro src input r h
    obtain ⟨input1, r1, hsa, hfl, hr, hsz⟩ := fload_ok_destruct src input 0 r h
    obtain ⟨h1, h2, h3⟩ := floadLoop_ok_spec src.length src input1 0 0 r1 hfl
    have hc0 : r1.cnt = 0 := by have := h3 (le_refl 0); omega
    subst hr
    dsimp
    rw [h2, hc0]
    simp

/-- Witness for fload_bin_mirrors_sent_chunks on a two-byte load. -/
theorem fload_bin_mirrors_sent_chunks_witness :
    ({ trace := [Event.sent (encodeLoad 2), Event.recv [], Event.sent [10, 20],
                 Event.recv []],
       floadBin := [10, 20], input := [], cnt := 2 } : LoadState).floadBin =
      [10, 20, 30].take 2 :=
  fload_bin_mirrors_sent_chunks.2.1 [10, 20, 30] [0, 0] 2
    ⟨[Event.sent (encodeLoad 2), Event.recv [], Event.sent [10, 20], Event.recv []],
     [10, 20], [], 2⟩ (by decide) (by decide)

/-- C10: the dump loop makes progress only on non-empty frames — receiving
a zero-length frame while cnt < size leaves the count of the rest of the
run unchanged (the loop merely records the empty frame and its ack and
continues from the same count); and when every delivered frame is
non-empty and the frames carry at least size bytes in total, the loop
terminates normally with the count exactly equal to size. -/
theorem dump_progress_needs_nonempty_frames :
    (∀ fuel rest size cnt, cnt < size →
      fdumpLoop (fuel + 1) (0 :: rest) size cnt =
        Res.map (fun r => ⟨Event.recv [] :: Event.sent [] :: r.trace, r.sink, r.input, r.cnt⟩)
          (fdumpLoop fuel rest size cnt)) ∧
    (∀ fs size, (∀ f ∈ fs, f ≠ []) → size ≤ (fs.map List.length).sum →
      ∃ r, fdumpLoop (encodeFrames fs).length (encodeFrames fs) size 0 = .ok r ∧
        r.cnt = size) := by
  constructor
  · intro fuel rest size cnt hlt
    simp only [fdumpLoop, if_pos hlt]
    rw [if_pos (Nat.zero_le _)]
    simp only [List.take_zero, List.drop_zero, List.take_nil, List.length_nil, Nat.add_zero]
    cases hres : fdumpLoop fuel rest size cnt with
    | ok r => simp [Res.map]
    | error e => simp [Res.map]
  · intro fs size hne hsum
    exact fdumpLoop_frames_ok fs (encodeFrames fs).length size 0 (Nat.zero_le _)
      (by omega) hne (le_refl _)

/-- Witness for dump_progress_needs_nonempty_frames: a single zero-length
frame stalls a one-byte dump, which then hangs on the empty transport. -/
theorem dump_progress_needs_nonempty_frames_witness :
    fdumpLoop 1 [0] 1 0 =
      Res.map (fun r => ⟨Event.recv [] :: Event.sent [] :: r.trace, r.sink, r.input, r.cnt⟩)
        (fdumpLoop 0 [] 1 0) :=
  dump_progress_needs_nonempty_frames.1 0 [] 1 0 (by decide)

end Eeprom
